import Mathlib

/-!
Verification of the cortex-vision code-architecture core against its
natural-language specification.

The development shallowly embeds the algorithmic core of
`src/backend/code_architecture_agent.py` (Python fact extraction, dependency
graph edge construction, clustering, pattern detectors) and
`src/backend/backend_server.py` (call-flow tracing).  Python dictionaries
become structures, Python lists become `List`, Python floats become `ℚ`,
`None` becomes `none`, and machine traversals (`ast.walk`, the recursive call
tracer) become explicit breadth-first/fuelled recursions mirroring CPython
semantics.  String primitives used by the source (`split`, `replace`,
`endswith`, substring membership, `lower`, `capitalize`, lexicographic
sorting) are implemented structurally over the character lists underlying
`String`, so that every definition evaluates by kernel reduction.
-/

/-! ## Shared string and numeric helpers (character-level models of the
Python primitives used by the source) -/

/-- Python `min(a, b)`: the first argument on ties. -/
def pyMin (a b : ℚ) : ℚ := if a ≤ b then a else b

/-- ASCII model of `str.lower` on one character. -/
def asciiLower (c : Char) : Char :=
  if 'A' ≤ c ∧ c ≤ 'Z' then Char.ofNat (c.toNat + 32) else c

/-- ASCII model of `str.upper` on one character. -/
def asciiUpper (c : Char) : Char :=
  if 'a' ≤ c ∧ c ≤ 'z' then Char.ofNat (c.toNat - 32) else c

/-- Python `s.lower()` (ASCII model, which covers file paths). -/
def strLower (s : String) : String := String.mk (s.data.map asciiLower)

/-- Python `s.capitalize()`: first character upper-cased, the rest
lower-cased (ASCII model). -/
def pyCapitalize (s : String) : String :=
  match s.data with
  | [] => ""
  | c :: cs => String.mk (asciiUpper c :: cs.map asciiLower)

/-- Python `"\\" -> "/"` path normalisation, `s.replace("\\", "/")` for the
one-character pattern actually used by the source. -/
def normSlashes (s : String) : String :=
  String.mk (s.data.map (fun c => if c = '\\' then '/' else c))

/-- Python `s.split("/")` over the character list. -/
def splitOnSlash : List Char → List (List Char)
  | [] => [[]]
  | c :: rest =>
    match splitOnSlash rest with
    | [] => [[]]
    | seg :: segs => if c = '/' then [] :: seg :: segs else (c :: seg) :: segs

/-- The `parts` list of `path.split("/")` as strings. -/
def partsOf (s : String) : List String := (splitOnSlash s.data).map (fun l => String.mk l)

/-- Python `needle in hay` substring membership over character lists. -/
def listHasSub (needle : List Char) : List Char → Bool
  | [] => needle.isEmpty
  | a :: rest => needle.isPrefixOf (a :: rest) || listHasSub needle rest

/-- Python `hay.endswith(suffix)`. -/
def strEndsWith (hay suffix : String) : Bool :=
  suffix.data.reverse.isPrefixOf hay.data.reverse

/-- Lexicographic (code-point) comparison of character lists, the order used
by Python string sorting. -/
def charListLe : List Char → List Char → Bool
  | [], _ => true
  | _ :: _, [] => false
  | a :: as, b :: bs => if a = b then charListLe as bs else decide (a < b)

/-- Python string `<=` (code-point lexicographic). -/
def strLeB (a b : String) : Bool := charListLe a.data b.data

/-- Insertion step of an ascending insertion sort. -/
def insertSorted (s : String) : List String → List String
  | [] => [s]
  | t :: rest => if strLeB s t then s :: t :: rest else t :: insertSorted s rest

/-- Ascending sort of strings; on duplicate-free inputs this returns the
unique sorted arrangement, matching Python `sorted`. -/
def sortStrings (l : List String) : List String := l.foldr insertSorted []

/-- Distinct elements of a list, keeping first occurrences: the element set
of Python `set(...)` in a deterministic order. -/
def dedupFirstFrom (seen : List String) : List String → List String
  | [] => []
  | a :: rest =>
    if a ∈ seen then dedupFirstFrom seen rest else a :: dedupFirstFrom (a :: seen) rest

/-! ## Python AST model and `analyze_python_file`
(`code_architecture_agent.py`, lines 316-420)

The AST is restricted to the node kinds the analyzer inspects.  Any other
statement or expression is `otherNode` carrying its child nodes, so that
`ast.walk` still descends through it.  A call's callee is `PyCallFunc`:
`ast.Name` keeps its `id`, `ast.Attribute` keeps only its trailing `attr`
(the source discards the receiver; receiver sub-expressions belong to the
call's child list), anything else makes the analyzer skip the call.  Base
classes are already strings: a `Name` base contributes its `id`, any other
base expression its `str(...)` rendering, exactly what the source stores. -/

inductive PyCallFunc where
  | varName (id : String)
  | attrName (attr : String)
  | otherFunc
deriving DecidableEq

structure PyAlias where
  name : String
  asname : Option String
deriving DecidableEq

inductive PyNode where
  | classDef (name : String) (bases : List String) (body : List PyNode) (lineno : Nat)
  | functionDef (name : String) (body : List PyNode) (lineno : Nat)
  | callExpr (func : PyCallFunc) (args : List PyNode) (lineno : Nat)
  | importStmt (names : List PyAlias)
  | importFrom (module : Option String) (names : List PyAlias)
  | otherNode (children : List PyNode)

/-- The child nodes visited by `ast.iter_child_nodes`. -/
def PyNode.children : PyNode → List PyNode
  | .classDef _ _ body _ => body
  | .functionDef _ body _ => body
  | .callExpr _ args _ => args
  | .importStmt _ => []
  | .importFrom _ _ => []
  | .otherNode cs => cs

lemma one_le_sizeOf_list {α : Type} [SizeOf α] (l : List α) : 1 ≤ sizeOf l := by
  cases l with
  | nil => simp
  | cons a t => simp; omega

lemma sizeOf_children_lt (n : PyNode) : sizeOf n.children < sizeOf n := by
  cases n with
  | classDef name bases body lineno => simp [PyNode.children]; omega
  | functionDef name body lineno => simp [PyNode.children]; omega
  | callExpr func args lineno => simp [PyNode.children]; omega
  | importStmt names =>
    have h := one_le_sizeOf_list names
    simp [PyNode.children]; omega
  | importFrom module names =>
    have h := one_le_sizeOf_list names
    simp [PyNode.children]; omega
  | otherNode cs => simp [PyNode.children]

lemma sizeOf_pyList_append (l₁ l₂ : List PyNode) :
    sizeOf (l₁ ++ l₂) + 1 = sizeOf l₁ + sizeOf l₂ := by
  induction l₁ with
  | nil => simp; omega
  | cons a l ih => simp at ih ⊢; omega

/-- CPython `ast.walk`: breadth-first traversal with a FIFO work list, each
popped node yielded and its children appended to the queue.  The enclosing
`Module` node matches no analyzer branch, so the walk is modelled from the
module body onwards. -/
def pyWalk (q : List PyNode) : List PyNode :=
  match q with
  | [] => []
  | n :: rest => n :: pyWalk (rest ++ n.children)
termination_by sizeOf q
decreasing_by
  have h1 := sizeOf_children_lt n
  have h2 := sizeOf_pyList_append rest n.children
  simp at *
  omega

lemma pyWalk_nil : pyWalk [] = [] := by rw [pyWalk]

lemma pyWalk_cons (n : PyNode) (rest : List PyNode) :
    pyWalk (n :: rest) = n :: pyWalk (rest ++ n.children) := by rw [pyWalk]

/-- A record of the `symbols` list: Python/JS symbol dictionaries.  `cls` is
the `"class"` key (present only on methods), `bases` the `"bases"` key
(present only on classes). -/
structure SymbolRec where
  name : String
  type : String
  file : String
  line : Nat
  cls : Option String := none
  bases : Option (List String) := none
deriving DecidableEq

/-- A record of the `imports` list. -/
structure ImportRec where
  fromFile : String
  module : String
  symbol : String
deriving DecidableEq

/-- A record of the `function_calls` list. -/
structure FunctionCall where
  from_function : String
  from_class : Option String
  to_function : String
  file : String
  line : Nat
deriving DecidableEq

/-- A record of the `class_relationships` list; `type` is always
`"inherits"`. -/
structure ClassRel where
  from_class : String
  to_class : String
  type : String
  file : String
deriving DecidableEq

/-- The analyzer's accumulated lists plus its two context variables. -/
structure AnState where
  symbols : List SymbolRec
  imports : List ImportRec
  function_calls : List FunctionCall
  class_relationships : List ClassRel
  current_class : Option String
  current_function : Option String

def initAnState : AnState :=
  { symbols := [], imports := [], function_calls := [], class_relationships := [],
    current_class := none, current_function := none }

/-- The callee name extracted from a call's `func`: `ast.Name` gives `id`,
`ast.Attribute` gives `attr`, anything else is skipped (`continue`). -/
def callName : PyCallFunc → Option String
  | .varName id => some id
  | .attrName a => some a
  | .otherFunc => none

/-- The inner `ast.walk(node)` of the `FunctionDef` branch: every `Call`
descendant of `node` becomes one record attributed to the given function
name and the current class. -/
def collectCalls (fp : String) (cls : Option String) (fname : String) (n : PyNode) :
    List FunctionCall :=
  (pyWalk [n]).filterMap (fun sub =>
    match sub with
    | .callExpr f _ line => (callName f).map (fun cn =>
        { from_function := fname, from_class := cls, to_function := cn,
          file := fp, line := line })
    | _ => none)

/-- One iteration of the `for node in ast.walk(tree)` loop of
`analyze_python_file`. -/
def anStep (fp : String) (st : AnState) (n : PyNode) : AnState :=
  match n with
  | .classDef cname bases cbody line =>
    let rels := bases.map (fun b =>
      ({ from_class := cname, to_class := b, type := "inherits", file := fp } : ClassRel))
    let methodSyms := cbody.filterMap (fun item =>
      match item with
      | .functionDef mname _ mline =>
        some ({ name := mname, type := "method", cls := some cname,
                file := fp, line := mline } : SymbolRec)
      | _ => none)
    { st with
      symbols := st.symbols ++
        [{ name := cname, type := "class", file := fp, line := line, bases := some bases }] ++
        methodSyms,
      class_relationships := st.class_relationships ++ rels,
      current_class := some cname }
  | .functionDef fname fbody line =>
    let symbols :=
      if st.current_class.isNone then
        st.symbols ++ [{ name := fname, type := "function", file := fp, line := line }]
      else st.symbols
    { st with
      symbols := symbols,
      current_function := some fname,
      function_calls := st.function_calls ++
        collectCalls fp st.current_class fname (PyNode.functionDef fname fbody line) }
  | .importStmt aliases =>
    { st with imports := st.imports ++ aliases.map (fun a =>
        { fromFile := fp, module := a.name, symbol := a.asname.getD a.name }) }
  | .importFrom module aliases =>
    { st with imports := st.imports ++ aliases.map (fun a =>
        { fromFile := fp, module := module.getD "", symbol := a.name }) }
  | .callExpr _ _ _ => st
  | .otherNode _ => st

/-- `analyze_python_file` on a pre-parsed module body; `none` models
`ast.parse` raising (`SyntaxError` is swallowed into empty fact lists). -/
def analyze_python_file (parsed : Option (List PyNode)) (file_path : String) : AnState :=
  match parsed with
  | none => initAnState
  | some body => (pyWalk body).foldl (anStep file_path) initAnState

/-- One input file of the static analyzer, with its Python parse outcome
(`none` models any per-file parse failure, which the source absorbs either
in `analyze_python_file` or in the per-file `except` of
`static_analyzer_node`). -/
structure PyFileInfo where
  path : String
  parsed : Option (List PyNode)

/-- The concatenated fact bundles of `code_facts` (metadata counters
omitted). -/
structure CodeFacts where
  symbols : List SymbolRec
  imports : List ImportRec
  function_calls : List FunctionCall
  class_relationships : List ClassRel

/-- One iteration of the per-file loop of `static_analyzer_node`. -/
def mergeFacts (acc : CodeFacts) (f : PyFileInfo) : CodeFacts :=
  let r := analyze_python_file f.parsed f.path
  { symbols := acc.symbols ++ r.symbols,
    imports := acc.imports ++ r.imports,
    function_calls := acc.function_calls ++ r.function_calls,
    class_relationships := acc.class_relationships ++ r.class_relationships }

/-- `static_analyzer_node` restricted to the Python path (the only language
whose analyzer can encounter a parse failure; the remaining analyzers are
total regex scans). -/
def static_analyzer_node (files : List PyFileInfo) : CodeFacts :=
  files.foldl mergeFacts
    { symbols := [], imports := [], function_calls := [], class_relationships := [] }

/-! ## Dependency-graph edge construction
(`code_architecture_agent.py`, lines 680-699 and 763-784)

The NetworkX `DiGraph` edge dictionary is modelled as an insertion-ordered
edge list with unique `(source, target)` keys.  The universe of files
(`all_files`, a Python `set`) is a list parameter; the set's iteration order
is abstracted as the list order, which the verified invariants do not depend
on. -/

/-- One edge record of the produced dependency graph (its constant
`"type": "import"` key is omitted). -/
structure GEdge where
  source : String
  target : String
  weight : Nat
  relationship : String
deriving DecidableEq

/-- `resolve_import_to_file`: first file whose normalised path ends with one
of the six extension or index candidates, or which contains the module
string as a substring. -/
def resolve_import_to_file (module_path : String) (all_files : List String) : Option String :=
  let candidates := [module_path ++ ".py", module_path ++ ".js", module_path ++ ".ts",
    module_path ++ ".tsx", module_path ++ "/index.js", module_path ++ "/index.ts"]
  all_files.findSome? (fun file =>
    let normalized := normSlashes file
    if candidates.any (fun cand => strEndsWith normalized cand) ||
        listHasSub module_path.data normalized.data
    then some file else none)

/-- The folder of a path: all slash segments but the last, `"."` for a
root-level file. -/
def folderOf (path : String) : String :=
  let parts := partsOf (normSlashes path)
  if parts.length > 1 then String.intercalate "/" parts.dropLast else "."

/-- Increment the weight of the (unique) edge with the given key, the
`G[source][target]["weight"] += 1` branch. -/
def bumpWeight : List GEdge → String → String → List GEdge
  | [], _, _ => []
  | e :: rest, s, t =>
    if e.source = s ∧ e.target = t then { e with weight := e.weight + 1 } :: rest
    else e :: bumpWeight rest s t

/-- Processing of one entry of the `for imp in imports` loop of
`graph_builder_node`: resolve the module, drop unresolved or self or falsy
targets, classify the folder relationship, then merge or append. -/
def addImportEdge (all_files : List String) (edges : List GEdge) (imp : ImportRec) :
    List GEdge :=
  match resolve_import_to_file imp.module all_files with
  | none => edges
  | some target =>
    if target = "" then edges
    else if target = imp.fromFile then edges
    else
      let rel := if folderOf imp.fromFile = folderOf target then "intra_folder"
        else "inter_folder"
      if edges.any (fun e => decide (e.source = imp.fromFile ∧ e.target = target))
      then bumpWeight edges imp.fromFile target
      else edges ++ [{ source := imp.fromFile, target := target, weight := 1,
                       relationship := rel }]

/-- The full edge list built by `graph_builder_node` from the import facts. -/
def graph_builder_edges (all_files : List String) (imports : List ImportRec) : List GEdge :=
  imports.foldl (addImportEdge all_files) []

/-! ## Clusters (`graph_builder_node`, lines 787-805 and 871-880) -/

/-- One cluster record. -/
structure Cluster where
  id : String
  modules : List String
deriving DecidableEq

/-- The `clusters` value produced by `graph_builder_node`.  The call to
`networkx.community.greedy_modularity_communities` on the undirected
projection is modelled by the `comm` oracle: `some cs` is a successful
return, `none` a raised exception (the bare `except` branch). `nodes` is
`G.nodes()` and `numEdges` is `G.number_of_edges()`. -/
def graph_builder_clusters (nodes : List String) (numEdges : Nat)
    (comm : Option (List (List String))) : List Cluster :=
  if nodes.length > 0 then
    if numEdges > 0 then
      match comm with
      | some cs => cs.enum.map (fun ic => { id := "cluster_" ++ toString ic.1, modules := ic.2 })
      | none => [{ id := "cluster_0", modules := nodes }]
    else [{ id := "cluster_0", modules := nodes }]
  else []

/-! ## Pattern detectors (`code_architecture_agent.py`, lines 901-971) -/

/-- A graph node as the detectors see it: its `"id"` (the file path) and its
`"folder"`. -/
structure GraphNode where
  id : String
  folder : String
deriving DecidableEq

/-- A detected-pattern record; each detector fills its own payload field. -/
structure PatternRecord where
  type : String
  confidence : ℚ
  evidence : List String
  layers : Option (List (String × List String)) := none
  components : Option (List (String × List String)) := none
  services : Option (List Cluster) := none
deriving DecidableEq

instance : Inhabited PatternRecord :=
  ⟨{ type := "", confidence := 0, evidence := [] }⟩

/-- Insertion into the `layers` dictionary: append to an existing key's list
or add a new key at the end (Python dict insertion order). -/
def addToGroups : List (String × List String) → String → String → List (String × List String)
  | [], key, nid => [(key, [nid])]
  | (k, v) :: rest, key, nid =>
    if k = key then (k, v ++ [nid]) :: rest else (k, v) :: addToGroups rest key nid

/-- One iteration of the grouping loop of `detect_layered_pattern`: a node
whose id has more than one slash segment is grouped under `parts[1]`. -/
def layerStep (gs : List (String × List String)) (node : GraphNode) :
    List (String × List String) :=
  let parts := partsOf node.id
  if parts.length > 1 then addToGroups gs (parts.getD 1 "") node.id else gs

/-- The `layers` dictionary of `detect_layered_pattern`. -/
def layerFold (nodes : List GraphNode) : List (String × List String) :=
  nodes.foldl layerStep []

/-- Specification-side description of the group keys: the distinct
`parts[1]` segments (first segment below the assumed top level) of node ids
with at least two segments, in first-occurrence order. -/
def secondSeg (id : String) : Option String := (partsOf id)[1]?

/-- The distinct layer names, in first-occurrence order. -/
def layerKeys (nodes : List GraphNode) : List String :=
  dedupFirstFrom [] (nodes.filterMap (fun n => secondSeg n.id))

/-- `detect_layered_pattern`. -/
def detect_layered_pattern (nodes : List GraphNode) : Option PatternRecord :=
  let layers := layerFold nodes
  if layers.length ≥ 2 then
    some { type := "Layered Architecture",
           confidence := pyMin ((6:ℚ)/10 + (layers.length : ℚ) * (1/10)) (9/10),
           evidence := ["Found " ++ toString layers.length ++ " distinct layers: " ++
             String.intercalate ", " (layers.map Prod.fst)],
           layers := some (layers.map (fun kv => (pyCapitalize kv.1, kv.2))) }
  else none

/-- The five keyword categories of `detect_mvc_pattern`, in dictionary
insertion order. -/
def mvcKeywords : List String := ["controller", "model", "view", "template", "route"]

/-- `detect_mvc_pattern`: case-insensitive keyword scan over node ids. -/
def detect_mvc_pattern (nodes : List GraphNode) : Option PatternRecord :=
  let found := mvcKeywords.map (fun k =>
    (k, nodes.filterMap (fun n =>
      if listHasSub k.data (strLower n.id).data then some n.id else none)))
  let found_components := found.filter (fun kv => !kv.2.isEmpty)
  if found_components.length ≥ 2 then
    some { type := "MVC Pattern",
           confidence := pyMin ((5:ℚ)/10 + (found_components.length : ℚ) * (15/100)) (95/100),
           evidence := found_components.map (fun kv =>
             "Found " ++ kv.1 ++ ": " ++ toString kv.2.length ++ " files"),
           components := some found_components }
  else none

/-- `detect_microservices_pattern`: fires on three or more clusters. -/
def detect_microservices_pattern (clusters : List Cluster) : Option PatternRecord :=
  if clusters.length ≥ 3 then
    some { type := "Microservices Pattern",
           confidence := pyMin ((5:ℚ)/10 + (clusters.length : ℚ) * (1/10)) (85/100),
           evidence := ["Found " ++ toString clusters.length ++ " distinct service boundaries",
             "Modular organization suggests service-oriented architecture"],
           services := some clusters }
  else none

/-! ## Call-flow tracer (`backend_server.py`, lines 500-587)

The recursive `trace_calls` shares one mutable `visited` set across the
whole recursion, so the embedding threads the visited list through and
recurses on the fuel `max_depth - current_depth`, which is zero exactly when
the source's `current_depth >= max_depth` guard fires. -/

/-- One traced call record. -/
structure CallRecord where
  fromFn : String
  from_class : Option String
  toFn : String
  file : String
  line : Nat
  depth : Nat
deriving DecidableEq

/-- Python `f"{x}"` on an optional string: `None` renders as `"None"`. -/
def pyStrOpt : Option String → String
  | none => "None"
  | some s => s

/-- The direct-call filter of `trace_calls`: caller name matches verbatim,
or the `f"{from_class}.{from_function}"` composite matches. -/
def matchesCaller (start : String) (c : FunctionCall) : Bool :=
  c.from_function == start || (pyStrOpt c.from_class ++ "." ++ c.from_function) == start

def mkCallRecord (d : Nat) (c : FunctionCall) : CallRecord :=
  { fromFn := c.from_function, from_class := c.from_class, toFn := c.to_function,
    file := c.file, line := c.line, depth := d }

/-- The recursion of `trace_calls`; the first argument is the remaining
depth budget `max_depth - current_depth`. -/
def trace_aux (fc : List FunctionCall) : Nat → Nat → String → List String →
    List CallRecord × List String
  | 0, _, _, visited => ([], visited)
  | fuel+1, d, start, visited =>
    if start ∈ visited then ([], visited)
    else
      let v1 := start :: visited
      let direct := (fc.filter (matchesCaller start)).map (mkCallRecord d)
      let r := direct.foldl (fun (acc : List CallRecord × List String) call =>
        let n := trace_aux fc fuel (d+1) call.toFn acc.2
        (acc.1 ++ n.1, n.2)) ([], v1)
      (direct ++ r.1, r.2)

/-- `trace_calls(method_name, function_calls, max_depth)` as called by
`get_call_flow`. -/
def trace_calls (fc : List FunctionCall) (start : String) (max_depth : Nat) :
    List CallRecord :=
  (trace_aux fc max_depth 0 start []).1

/-- The response record of `get_call_flow` (status texts abbreviated; the
early no-data response carries no `total_calls` key, modelled as `0`). -/
structure CallFlow where
  start_method : String
  max_depth : Nat
  calls : List CallRecord
  total_calls : Nat
  available_methods : List String
  message : String
deriving DecidableEq

/-- `get_call_flow` (its pure part, after the job lookup): empty-data early
return, else the available-caller list (a Python `set` of truthy caller
names, modelled in first-occurrence order, then sorted and capped at 100)
and the trace. -/
def get_call_flow (method_name : String) (max_depth : Nat)
    (function_calls : List FunctionCall) : CallFlow :=
  if function_calls.isEmpty then
    { start_method := method_name, max_depth := max_depth, calls := [], total_calls := 0,
      available_methods := [],
      message := "No function call data available." }
  else
    let available_methods := dedupFirstFrom []
      (function_calls.filterMap (fun c =>
        if c.from_function = "" then none else some c.from_function))
    let traced := trace_calls function_calls method_name max_depth
    { start_method := method_name, max_depth := max_depth, calls := traced,
      total_calls := traced.length,
      available_methods := (sortStrings available_methods).take 100,
      message := if traced.isEmpty then "No calls found from start method."
        else "Found " ++ toString traced.length ++ " function calls in the call flow" }

/-! ## Measurement helpers for call-edge counting -/

/-- The key test selecting the emitted CallEdges with a given signature:
attributed function name `f`, callee `c`, file `fp`, line `l`. -/
def callEdgePred (fp f c : String) (l : Nat) (r : FunctionCall) : Bool :=
  decide (r.from_function = f ∧ r.to_function = c ∧ r.file = fp ∧ r.line = l)

/-- Recognises an occurrence of a call expression with usable callee `c` at
line `l`. -/
def callOccurrences (c : String) (l : Nat) : PyNode → Bool
  | .callExpr cf _ line => decide (callName cf = some c ∧ line = l)
  | _ => false

/-- The number of CallEdge records a walked node owes to the signature
`(f, c, l)`: a function definition named `f` owes one record per matching
call occurrence in its subtree walk; every other node owes none. -/
def defContribution (f c : String) (l : Nat) : PyNode → Nat
  | .functionDef fname fb fl =>
    if fname = f then
      (pyWalk [PyNode.functionDef fname fb fl]).countP (callOccurrences c l)
    else 0
  | _ => 0

/-! ## Measurement helpers for the edge invariants -/

/-- The key test selecting the import occurrences merged into the edge
`(s, t)`: the import originates at `s` and its module resolves to `t`. -/
def importKey (all_files : List String) (s t : String) (imp : ImportRec) : Bool :=
  decide (imp.fromFile = s ∧ resolve_import_to_file imp.module all_files = some t)

/-- The weight of the edge with key `(s, t)` in an edge list, `0` when the
pair has no edge. -/
def edgeWeight (edges : List GEdge) (s t : String) : Nat :=
  match edges.find? (fun e => decide (e.source = s ∧ e.target = t)) with
  | some e => e.weight
  | none => 0

/-! ## Concrete demonstration inputs used by counterexamples and witnesses -/

/-- A module `class A: pass` followed by `def f(): pass`. -/
def c1DemoBody : List PyNode :=
  [.classDef "A" [] [.otherNode []] 1, .functionDef "f" [.otherNode []] 3]

/-- A module consisting of `def f():` containing `def g():` whose body is the
single call `c()`. -/
def c2DemoBody : List PyNode :=
  [.functionDef "f" [.functionDef "g" [.callExpr (.varName "c") [] 3] 2] 1]

/-- Same nesting shape used to instantiate the general nested-function
theorem. -/
def c3DemoGBody : List PyNode := [.callExpr (.varName "c") [] 3]

def c3DemoFBody : List PyNode := [.functionDef "g" c3DemoGBody 2]

def c3DemoBody : List PyNode := [.functionDef "f" c3DemoFBody 1]

def c4DemoFiles : List String := ["app/a.py", "app/b.py"]

def c4DemoImports : List ImportRec :=
  [{ fromFile := "app/b.py", module := "a", symbol := "a" },
   { fromFile := "app/b.py", module := "a", symbol := "x" }]

def c4DemoEdge : GEdge :=
  { source := "app/b.py", target := "app/a.py", weight := 2, relationship := "intra_folder" }

def c5DemoNodes : List String := ["m/a.py", "m/b.py"]

def c6LayerNodes : List GraphNode := [⟨"app/sub1/x.py", "app/sub1"⟩, ⟨"app/sub2/y.py", "app/sub2"⟩]

def c6MvcNodes : List GraphNode := [⟨"app/controller.py", "app"⟩, ⟨"app/model.py", "app"⟩]

def c6Clusters : List Cluster :=
  [⟨"cluster_0", ["a"]⟩, ⟨"cluster_1", ["b"]⟩, ⟨"cluster_2", ["c"]⟩]

def c6LayeredRec : PatternRecord := (detect_layered_pattern c6LayerNodes).getD default

def c6MvcRec : PatternRecord := (detect_mvc_pattern c6MvcNodes).getD default

def c6MicroRec : PatternRecord := (detect_microservices_pattern c6Clusters).getD default

def c7DemoNodes : List GraphNode :=
  [⟨"src/backend/a.py", "src/backend"⟩, ⟨"src/frontend/b.py", "src/frontend"⟩,
   ⟨"src/backend/c.py", "src/backend"⟩]

def c7DemoRec : PatternRecord := (detect_layered_pattern c7DemoNodes).getD default

def c8DemoCalls : List FunctionCall :=
  [{ from_function := "foo", from_class := none, to_function := "bar", file := "a.py", line := 1 },
   { from_function := "bar", from_class := none, to_function := "baz", file := "a.py", line := 2 }]

def c9DemoCalls : List FunctionCall :=
  [{ from_function := "foo", from_class := none, to_function := "bar", file := "a.py", line := 1 },
   { from_function := "bar", from_class := none, to_function := "baz", file := "a.py", line := 2 }]

/-! ## General lemmas about the helpers -/

lemma insertSorted_length (s : String) (l : List String) :
    (insertSorted s l).length = l.length + 1 := by
  induction l with
  | nil => rfl
  | cons t rest ih => simp only [insertSorted]; split <;> simp [ih]

lemma sortStrings_length (l : List String) : (sortStrings l).length = l.length := by
  induction l with
  | nil => rfl
  | cons t rest ih =>
    simp only [sortStrings, List.foldr] at ih ⊢
    rw [insertSorted_length, ih, List.length_cons]

lemma mem_dedupFirstFrom (x : String) (l : List String) :
    ∀ seen, x ∈ dedupFirstFrom seen l ↔ x ∈ l ∧ x ∉ seen := by
  induction l with
  | nil => intro seen; simp [dedupFirstFrom]
  | cons a rest ih =>
    intro seen
    rw [dedupFirstFrom]
    by_cases ha : a ∈ seen
    · rw [if_pos ha, ih seen]
      constructor
      · exact fun h => ⟨List.mem_cons_of_mem _ h.1, h.2⟩
      · rintro ⟨h1, h2⟩
        rcases List.mem_cons.mp h1 with h | h
        · subst h; exact absurd ha h2
        · exact ⟨h, h2⟩
    · rw [if_neg ha, List.mem_cons, ih (a :: seen)]
      constructor
      · rintro (h | ⟨h1, h2⟩)
        · subst h; exact ⟨List.mem_cons_self _ _, ha⟩
        · exact ⟨List.mem_cons_of_mem _ h1, fun hx => h2 (List.mem_cons_of_mem _ hx)⟩
      · rintro ⟨h1, h2⟩
        by_cases hxa : x = a
        · exact Or.inl hxa
        · rcases List.mem_cons.mp h1 with h | h
          · exact absurd h hxa
          · refine Or.inr ⟨h, fun hx => ?_⟩
            rcases List.mem_cons.mp hx with h3 | h3
            · exact hxa h3
            · exact h2 h3

/-! ## Structure of the breadth-first walk -/

lemma pyWalk_single (n : PyNode) : pyWalk [n] = n :: pyWalk n.children := by
  rw [pyWalk_cons, List.nil_append]

/-- Membership in a walk decomposes through the queue: a node appears in
`pyWalk q` exactly when it appears in the walk of the subtree of some queue
element. -/
lemma mem_pyWalk_iff : ∀ (q : List PyNode) (m : PyNode),
    m ∈ pyWalk q ↔ ∃ n, n ∈ q ∧ m ∈ pyWalk [n]
  | [], m => by simp [pyWalk_nil]
  | h :: rest, m => by
    have ihq := mem_pyWalk_iff (rest ++ h.children) m
    have ihc := mem_pyWalk_iff h.children m
    rw [pyWalk_cons, List.mem_cons, ihq]
    constructor
    · rintro (hm | ⟨n, hn, hmn⟩)
      · refine ⟨h, List.mem_cons_self _ _, ?_⟩
        rw [pyWalk_single]
        exact hm ▸ List.mem_cons_self _ _
      · rcases List.mem_append.mp hn with h1 | h1
        · exact ⟨n, List.mem_cons_of_mem _ h1, hmn⟩
        · refine ⟨h, List.mem_cons_self _ _, ?_⟩
          rw [pyWalk_single]
          exact List.mem_cons_of_mem _ (ihc.mpr ⟨n, h1, hmn⟩)
    · rintro ⟨n, hn, hmn⟩
      rcases List.mem_cons.mp hn with h1 | h1
      · subst h1
        rw [pyWalk_single] at hmn
        rcases List.mem_cons.mp hmn with hm | hm
        · exact Or.inl hm
        · rcases ihc.mp hm with ⟨k, hk, hmk⟩
          exact Or.inr ⟨k, List.mem_append.mpr (Or.inr hk), hmk⟩
      · exact Or.inr ⟨n, List.mem_append.mpr (Or.inl h1), hmn⟩
termination_by q m => sizeOf q
decreasing_by
  · have h1 := sizeOf_children_lt h
    have h2 := sizeOf_pyList_append rest h.children
    simp at *
    omega
  · have h1 := sizeOf_children_lt h
    simp at *
    omega

/-- Walk membership (being a descendant-or-self) is transitive through
single-node walks. -/
lemma mem_pyWalk_single_trans : ∀ (k m n : PyNode),
    m ∈ pyWalk [n] → n ∈ pyWalk [k] → m ∈ pyWalk [k]
  | k, m, n => fun h1 h2 => by
    rw [pyWalk_single] at h2
    rcases List.mem_cons.mp h2 with he | hc
    · exact he ▸ h1
    · rcases (mem_pyWalk_iff k.children n).mp hc with ⟨c, hck, hnc⟩
      have hmc : m ∈ pyWalk [c] := mem_pyWalk_single_trans c m n h1 hnc
      rw [pyWalk_single]
      exact List.mem_cons_of_mem _ ((mem_pyWalk_iff k.children m).mpr ⟨c, hck, hmc⟩)
termination_by k m n => sizeOf k
decreasing_by
  have h3 := List.sizeOf_lt_of_mem hck
  have h4 := sizeOf_children_lt k
  omega

lemma mem_pyWalk_trans (q : List PyNode) (m n : PyNode)
    (h1 : m ∈ pyWalk [n]) (h2 : n ∈ pyWalk q) : m ∈ pyWalk q := by
  rcases (mem_pyWalk_iff q n).mp h2 with ⟨k, hk, hnk⟩
  exact (mem_pyWalk_iff q m).mpr ⟨k, hk, mem_pyWalk_single_trans k m n h1 hnk⟩

/-! ## Accumulation lemmas for the analyzer fold -/

lemma anStep_calls_mono (fp : String) (st : AnState) (n : PyNode) (r : FunctionCall)
    (h : r ∈ st.function_calls) : r ∈ (anStep fp st n).function_calls := by
  cases n with
  | classDef a b c d => simpa [anStep] using h
  | functionDef a b c =>
    simp only [anStep]
    exact List.mem_append_left _ h
  | callExpr a b c => simpa [anStep] using h
  | importStmt a => simpa [anStep] using h
  | importFrom a b => simpa [anStep] using h
  | otherNode a => simpa [anStep] using h

lemma foldl_calls_mono (fp : String) (r : FunctionCall) :
    ∀ (l : List PyNode) (st : AnState), r ∈ st.function_calls →
      r ∈ (l.foldl (anStep fp) st).function_calls
  | [], _, h => h
  | n :: rest, st, h =>
    foldl_calls_mono fp r rest (anStep fp st n) (anStep_calls_mono fp st n r h)

/-- Whenever the outer walk list contains a `FunctionDef` and some `Call`
with a usable callee lies in that definition's subtree walk, the fold
records a call edge attributed to that function (with whatever
`current_class` was current). -/
lemma foldl_calls_emit (fp : String) :
    ∀ (l : List PyNode) (st : AnState) (fname : String) (fb : List PyNode) (fl : Nat)
      (cf : PyCallFunc) (cargs : List PyNode) (cl : Nat) (callee : String),
      PyNode.functionDef fname fb fl ∈ l →
      PyNode.callExpr cf cargs cl ∈ pyWalk [PyNode.functionDef fname fb fl] →
      callName cf = some callee →
      ∃ cls, ({ from_function := fname, from_class := cls, to_function := callee,
                file := fp, line := cl } : FunctionCall) ∈
        (l.foldl (anStep fp) st).function_calls := by
  intro l
  induction l with
  | nil =>
    intro st fname fb fl cf cargs cl callee hmem
    exact absurd hmem (List.not_mem_nil _)
  | cons n rest ih =>
    intro st fname fb fl cf cargs cl callee hmem hcall hname
    rcases List.mem_cons.mp hmem with he | ht
    · refine ⟨st.current_class, ?_⟩
      rw [List.foldl_cons]
      apply foldl_calls_mono
      rw [← he]
      simp only [anStep]
      apply List.mem_append_right
      rw [collectCalls]
      exact List.mem_filterMap.mpr ⟨PyNode.callExpr cf cargs cl, hcall, by simp [hname]⟩
    · exact ih (anStep fp st n) fname fb fl cf cargs cl callee ht hcall hname

/-! ## Claim C1 -/

/-- C1: evaluation of `analyze_python_file` at the failing input
`class A: pass` followed by `def f(): pass`.  The claim says the top-level
function `f` yields one Symbol of kind `function`; the code records no
symbol at all for `f`, because `ast.walk` visits the `ClassDef` first and
`current_class` is never reset to `None`, so the guard meant to detect
top-level functions misfires.  Only the class symbol is produced. -/
theorem c1_top_level_function_after_class_yields_no_symbol :
    (analyze_python_file (some c1DemoBody) "m.py").symbols =
      [{ name := "A", type := "class", file := "m.py", line := 1, bases := some [] }] ∧
    ((analyze_python_file (some c1DemoBody) "m.py").symbols.countP
      (fun s => s.type == "function")) = 0 := by
  constructor <;>
    simp [analyze_python_file, c1DemoBody, pyWalk_cons, pyWalk_nil, PyNode.children,
      anStep, collectCalls, callName, initAnState]

/-! ## Claim C2 -/

/-- C2 counterexample: the module `def f():  def g():  c()` contains exactly
one call expression, yet `analyze_python_file` records two CallEdges for it
(one while walking `f`, whose inner `ast.walk` re-walks the whole subtree,
and one while walking `g`), refuting the claim that each call expression in
a function body is recorded as exactly one CallEdge. -/
theorem c2_counterexample_nested_call_double_recorded :
    (analyze_python_file (some c2DemoBody) "a.py").function_calls =
      [{ from_function := "f", from_class := none, to_function := "c", file := "a.py", line := 3 },
       { from_function := "g", from_class := none, to_function := "c", file := "a.py", line := 3 }] ∧
    (analyze_python_file (some c2DemoBody) "a.py").function_calls.length ≠ 1 := by
  constructor <;>
    simp [analyze_python_file, c2DemoBody, pyWalk_cons, pyWalk_nil, PyNode.children,
      anStep, collectCalls, callName, initAnState]

lemma countP_collect_zero (fp f c : String) (cls : Option String) (fname : String)
    (l : Nat) (n : PyNode) (hne : fname ≠ f) :
    (collectCalls fp cls fname n).countP (callEdgePred fp f c l) = 0 := by
  rw [List.countP_eq_zero]
  intro r hr
  rw [collectCalls] at hr
  rcases List.mem_filterMap.mp hr with ⟨sub, hsub, hmap⟩
  cases sub with
  | callExpr cf args cl2 =>
    cases hcn : callName cf with
    | none =>
      simp [hcn] at hmap
    | some cn =>
      simp only [hcn, Option.map_some'] at hmap
      injection hmap with hmap
      rw [← hmap, callEdgePred]
      simp [hne]
  | classDef a b d e => simp at hmap
  | functionDef a b d => simp at hmap
  | importStmt a => simp at hmap
  | importFrom a b => simp at hmap
  | otherNode a => simp at hmap

lemma countP_collectCalls_eq (fp c : String) (cls : Option String) (f : String) (l : Nat)
    (n : PyNode) :
    (collectCalls fp cls f n).countP (callEdgePred fp f c l) =
      (pyWalk [n]).countP (callOccurrences c l) := by
  rw [collectCalls]
  generalize pyWalk [n] = xs
  induction xs with
  | nil => simp
  | cons x rest ih =>
    cases x with
    | callExpr cf args cl2 =>
      cases hcn : callName cf with
      | none =>
        simp only [List.filterMap_cons, hcn, Option.map_none']
        rw [List.countP_cons]
        simp [callOccurrences, hcn, ih]
      | some cn =>
        simp only [List.filterMap_cons, hcn, Option.map_some']
        rw [List.countP_cons, List.countP_cons, ih]
        congr 1
        simp [callEdgePred, callOccurrences, hcn]
    | classDef a b d e => simp [List.filterMap_cons, List.countP_cons, callOccurrences, ih]
    | functionDef a b d => simp [List.filterMap_cons, List.countP_cons, callOccurrences, ih]
    | importStmt a => simp [List.filterMap_cons, List.countP_cons, callOccurrences, ih]
    | importFrom a b => simp [List.filterMap_cons, List.countP_cons, callOccurrences, ih]
    | otherNode a => simp [List.filterMap_cons, List.countP_cons, callOccurrences, ih]

lemma countP_collectCalls (fp f c : String) (cls : Option String) (fname : String)
    (l : Nat) (n : PyNode) :
    (collectCalls fp cls fname n).countP (callEdgePred fp f c l) =
      if fname = f then (pyWalk [n]).countP (callOccurrences c l) else 0 := by
  by_cases hf : fname = f
  · subst hf
    rw [if_pos rfl]
    exact countP_collectCalls_eq fp c cls fname l n
  · rw [if_neg hf]
    exact countP_collect_zero fp f c cls fname l n hf

lemma foldl_calls_countP (fp f c : String) (l : Nat) :
    ∀ (ns : List PyNode) (st : AnState),
      ((ns.foldl (anStep fp) st).function_calls).countP (callEdgePred fp f c l) =
        (st.function_calls).countP (callEdgePred fp f c l) +
          (ns.map (defContribution f c l)).sum
  | [], st => by simp
  | n :: rest, st => by
    rw [List.foldl_cons,
      foldl_calls_countP fp f c l rest (anStep fp st n), List.map_cons, List.sum_cons]
    have hstep : ((anStep fp st n).function_calls).countP (callEdgePred fp f c l) =
        (st.function_calls).countP (callEdgePred fp f c l) + defContribution f c l n := by
      cases n with
      | classDef a b d e => simp [anStep, defContribution]
      | functionDef fname fb fl =>
        simp only [anStep]
        rw [List.countP_append, countP_collectCalls fp f c st.current_class fname l
          (PyNode.functionDef fname fb fl), defContribution]
      | callExpr a b d => simp [anStep, defContribution]
      | importStmt a => simp [anStep, defContribution]
      | importFrom a b => simp [anStep, defContribution]
      | otherNode a => simp [anStep, defContribution]
    rw [hstep]
    omega

/-- C2 amended: every call expression in a function body is recorded once
per function definition whose subtree contains it, attributed to that
definition — so exactly one CallEdge when the containing function is not
nested inside another function definition, and one per enclosing function
definition under nesting.  Formally, for every module body and every record
signature (attributed function name `f`, callee `c`, line `l`), the number
of emitted CallEdges with that signature equals the sum, over the
`FunctionDef` nodes named `f` visited by the walk, of the number of call
occurrences with callee `c` at line `l` in that definition's subtree walk —
each (enclosing definition, call occurrence) pair contributes exactly one
record. -/
theorem c2_amended_call_recorded_once_per_enclosing_function
    (fp : String) (body : List PyNode) (f c : String) (l : Nat) :
    ((analyze_python_file (some body) fp).function_calls).countP (callEdgePred fp f c l) =
      ((pyWalk body).map (defContribution f c l)).sum := by
  simp only [analyze_python_file]
  rw [foldl_calls_countP fp f c l (pyWalk body) initAnState]
  simp [initAnState]

/-! ## Claim C3 -/

/-- C3: when a function definition `g` lies in the body subtree of a
function definition `f` that the walk reaches, every call expression (with a
usable callee name) in `g`'s body subtree produces a CallEdge attributed to
`f` and another attributed to `g`: each `FunctionDef`'s entire subtree is
re-walked when the outer walk reaches it. -/
theorem c3_nested_call_recorded_per_enclosing_function
    (fp : String) (body : List PyNode)
    (f : String) (fb : List PyNode) (fl : Nat)
    (g : String) (gb : List PyNode) (gl : Nat)
    (cf : PyCallFunc) (cargs : List PyNode) (cl : Nat) (callee : String)
    (h1 : PyNode.functionDef f fb fl ∈ pyWalk body)
    (h2 : PyNode.functionDef g gb gl ∈ pyWalk fb)
    (h3 : PyNode.callExpr cf cargs cl ∈ pyWalk gb)
    (h4 : callName cf = some callee) :
    (∃ cls, ({ from_function := f, from_class := cls, to_function := callee,
               file := fp, line := cl } : FunctionCall) ∈
        (analyze_python_file (some body) fp).function_calls) ∧
    (∃ cls, ({ from_function := g, from_class := cls, to_function := callee,
               file := fp, line := cl } : FunctionCall) ∈
        (analyze_python_file (some body) fp).function_calls) := by
  have hgf : PyNode.functionDef g gb gl ∈ pyWalk [PyNode.functionDef f fb fl] := by
    rw [pyWalk_single]
    exact List.mem_cons_of_mem _ (by simpa [PyNode.children] using h2)
  have hcg : PyNode.callExpr cf cargs cl ∈ pyWalk [PyNode.functionDef g gb gl] := by
    rw [pyWalk_single]
    exact List.mem_cons_of_mem _ (by simpa [PyNode.children] using h3)
  have hcf : PyNode.callExpr cf cargs cl ∈ pyWalk [PyNode.functionDef f fb fl] :=
    mem_pyWalk_single_trans _ _ _ hcg hgf
  have hgbody : PyNode.functionDef g gb gl ∈ pyWalk body :=
    mem_pyWalk_trans body _ _ hgf h1
  simp only [analyze_python_file]
  exact ⟨foldl_calls_emit fp (pyWalk body) initAnState f fb fl cf cargs cl callee h1 hcf h4,
    foldl_calls_emit fp (pyWalk body) initAnState g gb gl cf cargs cl callee hgbody hcg h4⟩

/-- C3 witness: the general theorem instantiated at the concrete module
`def f():  def g():  c()`. -/
theorem c3_witness :
    (∃ cls, ({ from_function := "f", from_class := cls, to_function := "c",
               file := "w.py", line := 3 } : FunctionCall) ∈
        (analyze_python_file (some c3DemoBody) "w.py").function_calls) ∧
    (∃ cls, ({ from_function := "g", from_class := cls, to_function := "c",
               file := "w.py", line := 3 } : FunctionCall) ∈
        (analyze_python_file (some c3DemoBody) "w.py").function_calls) :=
  c3_nested_call_recorded_per_enclosing_function "w.py" c3DemoBody
    "f" c3DemoFBody 1 "g" c3DemoGBody 2 (.varName "c") [] 3 "c"
    (by simp [c3DemoBody, c3DemoFBody, c3DemoGBody, pyWalk_cons, pyWalk_nil, PyNode.children])
    (by simp [c3DemoFBody, c3DemoGBody, pyWalk_cons, pyWalk_nil, PyNode.children])
    (by simp [c3DemoGBody, pyWalk_cons, pyWalk_nil, PyNode.children])
    rfl

/-! ## Claim C10 -/

/-- C10: a file whose parse fails contributes an empty fact bundle — the
extracted fact lists are identical to those of the run without that file,
so facts from other files are unaffected and the run continues (the
embedding is total, the per-file `except` absorbs every analyzer failure). -/
theorem c10_parse_error_yields_empty_bundle_run_continues
    (pre post : List PyFileInfo) (p : String) :
    static_analyzer_node (pre ++ { path := p, parsed := none } :: post) =
    static_analyzer_node (pre ++ post) := by
  rw [static_analyzer_node, static_analyzer_node, List.foldl_append, List.foldl_append,
    List.foldl_cons]
  congr 1
  simp [mergeFacts, analyze_python_file, initAnState]

/-! ## Claim C4: edge-merging invariants -/

/-- Key-distinctness relation between edges. -/
def keyNe (a b : GEdge) : Prop := ¬(a.source = b.source ∧ a.target = b.target)

lemma mem_bumpWeight (s t : String) :
    ∀ (edges : List GEdge), ∀ b ∈ bumpWeight edges s t,
      ∃ b0 ∈ edges, b.source = b0.source ∧ b.target = b0.target
  | [], b, hb => absurd hb (List.not_mem_nil _)
  | e :: rest, b, hb => by
    rw [bumpWeight] at hb
    split at hb
    · rcases List.mem_cons.mp hb with h | h
      · exact ⟨e, List.mem_cons_self _ _, by subst h; exact ⟨rfl, rfl⟩⟩
      · exact ⟨b, List.mem_cons_of_mem _ h, rfl, rfl⟩
    · rcases List.mem_cons.mp hb with h | h
      · exact ⟨e, List.mem_cons_self _ _, by subst h; exact ⟨rfl, rfl⟩⟩
      · rcases mem_bumpWeight s t rest b h with ⟨b0, hb0, hkey⟩
        exact ⟨b0, List.mem_cons_of_mem _ hb0, hkey⟩

lemma bumpWeight_pairwise (s t : String) :
    ∀ (edges : List GEdge), List.Pairwise keyNe edges →
      List.Pairwise keyNe (bumpWeight edges s t)
  | [], _ => by rw [bumpWeight]; exact List.Pairwise.nil
  | e :: rest, hpw => by
    rw [bumpWeight]
    rcases List.pairwise_cons.mp hpw with ⟨hhead, htail⟩
    split
    · exact List.pairwise_cons.mpr ⟨fun b hb => hhead b hb, htail⟩
    · refine List.pairwise_cons.mpr ⟨fun b hb => ?_, bumpWeight_pairwise s t rest htail⟩
      rcases mem_bumpWeight s t rest b hb with ⟨b0, hb0, hs, ht⟩
      have := hhead b0 hb0
      rw [keyNe, hs, ht]
      exact this

lemma edgeWeight_bumpWeight_self (s t : String) :
    ∀ (edges : List GEdge),
      edges.any (fun e => decide (e.source = s ∧ e.target = t)) = true →
      edgeWeight (bumpWeight edges s t) s t = edgeWeight edges s t + 1
  | [], h => by simp at h
  | e :: rest, h => by
    rw [bumpWeight]
    by_cases hk : e.source = s ∧ e.target = t
    · rw [if_pos hk]
      rw [edgeWeight, edgeWeight]
      rw [List.find?_cons_of_pos _ (by simpa using hk),
        List.find?_cons_of_pos _ (by simpa using hk)]
    · rw [if_neg hk]
      have hrest : rest.any (fun e => decide (e.source = s ∧ e.target = t)) = true := by
        rcases List.any_eq_true.mp h with ⟨x, hx, hxk⟩
        rcases List.mem_cons.mp hx with h1 | h1
        · exact absurd (of_decide_eq_true (h1 ▸ hxk)) hk
        · exact List.any_eq_true.mpr ⟨x, h1, hxk⟩
      rw [edgeWeight, edgeWeight]
      rw [List.find?_cons_of_neg _ (by simpa using hk),
        List.find?_cons_of_neg _ (by simpa using hk)]
      exact edgeWeight_bumpWeight_self s t rest hrest

lemma edgeWeight_bumpWeight_other (s t s2 t2 : String) (hne : ¬(s2 = s ∧ t2 = t)) :
    ∀ (edges : List GEdge),
      edgeWeight (bumpWeight edges s t) s2 t2 = edgeWeight edges s2 t2
  | [] => by rw [bumpWeight]
  | e :: rest => by
    rw [bumpWeight]
    by_cases hk : e.source = s ∧ e.target = t
    · rw [if_pos hk]
      have hk2 : ¬(e.source = s2 ∧ e.target = t2) := by
        rintro ⟨h1, h2⟩
        exact hne ⟨h1 ▸ hk.1, h2 ▸ hk.2⟩
      rw [edgeWeight, edgeWeight]
      rw [List.find?_cons_of_neg _ (by simpa using hk2),
        List.find?_cons_of_neg _ (by simpa using hk2)]
    · rw [if_neg hk]
      by_cases hk2 : e.source = s2 ∧ e.target = t2
      · rw [edgeWeight, edgeWeight]
        rw [List.find?_cons_of_pos _ (by simpa using hk2),
          List.find?_cons_of_pos _ (by simpa using hk2)]
      · rw [edgeWeight, edgeWeight]
        rw [List.find?_cons_of_neg _ (by simpa using hk2),
          List.find?_cons_of_neg _ (by simpa using hk2)]
        exact edgeWeight_bumpWeight_other s t s2 t2 hne rest

lemma edgeWeight_eq_zero_of_not_any (edges : List GEdge) (s t : String)
    (h : edges.any (fun e => decide (e.source = s ∧ e.target = t)) = false) :
    edgeWeight edges s t = 0 := by
  rw [edgeWeight]
  have : edges.find? (fun e => decide (e.source = s ∧ e.target = t)) = none := by
    rw [List.find?_eq_none]
    intro x hx
    have := List.any_eq_false.mp h x hx
    simpa using this
  rw [this]

lemma edgeWeight_append_singleton (edges : List GEdge) (a : GEdge) (s t : String) :
    edgeWeight (edges ++ [a]) s t =
      match edges.find? (fun e => decide (e.source = s ∧ e.target = t)) with
      | some e => e.weight
      | none => if a.source = s ∧ a.target = t then a.weight else 0 := by
  rw [edgeWeight, List.find?_append]
  cases hf : edges.find? (fun e => decide (e.source = s ∧ e.target = t)) with
  | some e => rfl
  | none =>
    simp only [Option.none_or]
    by_cases hk : a.source = s ∧ a.target = t
    · rw [if_pos hk, List.find?_cons_of_pos _ (by simpa using hk)]
    · rw [if_neg hk, List.find?_cons_of_neg _ (by simpa using hk), List.find?_nil]

/-- The three invariants maintained while folding the import list into the
edge list. -/
def EdgeInv (af : List String) (edges : List GEdge) (pr : List ImportRec) : Prop :=
  List.Pairwise keyNe edges ∧
  (∀ e ∈ edges, e.source ≠ e.target ∧ e.target ≠ "") ∧
  (∀ s t, s ≠ t → t ≠ "" → pr.countP (importKey af s t) = edgeWeight edges s t)


lemma addImportEdge_inv (af : List String) (edges : List GEdge) (pr : List ImportRec)
    (imp : ImportRec) (h : EdgeInv af edges pr) :
    EdgeInv af (addImportEdge af edges imp) (pr ++ [imp]) := by
  obtain ⟨h1, h2, h3⟩ := h
  have hcount : ∀ s t, (pr ++ [imp]).countP (importKey af s t) =
      pr.countP (importKey af s t) + (if importKey af s t imp = true then 1 else 0) := by
    intro s t
    rw [List.countP_append, List.countP_cons, List.countP_nil]
    simp
  cases hres : resolve_import_to_file imp.module af with
  | none =>
    simp only [addImportEdge, hres]
    refine ⟨h1, h2, fun s t hst ht => ?_⟩
    have hk : importKey af s t imp = false := by
      rw [importKey, decide_eq_false_iff_not]
      rintro ⟨-, hc⟩
      rw [hres] at hc
      exact Option.noConfusion hc
    rw [hcount s t, hk]
    simpa using h3 s t hst ht
  | some target =>
    simp only [addImportEdge, hres]
    by_cases htgt : target = ""
    · rw [if_pos htgt]
      refine ⟨h1, h2, fun s t hst ht => ?_⟩
      have hk : importKey af s t imp = false := by
        rw [importKey, decide_eq_false_iff_not]
        rintro ⟨-, hc⟩
        rw [hres] at hc
        injection hc with hc
        exact ht (hc ▸ htgt)
      rw [hcount s t, hk]
      simpa using h3 s t hst ht
    · rw [if_neg htgt]
      by_cases hself : target = imp.fromFile
      · rw [if_pos hself]
        refine ⟨h1, h2, fun s t hst ht => ?_⟩
        have hk : importKey af s t imp = false := by
          rw [importKey, decide_eq_false_iff_not]
          rintro ⟨hc1, hc2⟩
          rw [hres] at hc2
          injection hc2 with hc2
          exact hst (by rw [← hc1, ← hc2, hself])
        rw [hcount s t, hk]
        simpa using h3 s t hst ht
      · rw [if_neg hself]
        by_cases hany : edges.any
            (fun e => decide (e.source = imp.fromFile ∧ e.target = target)) = true
        · rw [if_pos hany]
          refine ⟨bumpWeight_pairwise _ _ edges h1, ?_, ?_⟩
          · intro e he
            rcases mem_bumpWeight _ _ edges e he with ⟨b0, hb0, hs, htp⟩
            rw [hs, htp]
            exact h2 b0 hb0
          · intro s t hst ht
            rw [hcount s t]
            by_cases hkey : s = imp.fromFile ∧ t = target
            · obtain ⟨hks, hkt⟩ := hkey
              subst hks; subst hkt
              have hk : importKey af imp.fromFile t imp = true := by
                simp [importKey, hres]
              rw [hk, if_pos rfl, edgeWeight_bumpWeight_self _ _ edges hany,
                h3 _ _ hst ht]
            · have hk : importKey af s t imp = false := by
                rw [importKey, decide_eq_false_iff_not]
                rintro ⟨hc1, hc2⟩
                rw [hres] at hc2
                injection hc2 with hc2
                exact hkey ⟨hc1.symm, hc2.symm⟩
              rw [hk]
              rw [edgeWeight_bumpWeight_other imp.fromFile target s t
                (fun hx => hkey ⟨hx.1, hx.2⟩) edges]
              simpa using h3 s t hst ht
        · rw [if_neg hany]
          rw [Bool.not_eq_true] at hany
          refine ⟨?_, ?_, ?_⟩
          · rw [List.pairwise_append]
            refine ⟨h1, List.pairwise_singleton _ _, ?_⟩
            intro a ha b hb
            rw [List.mem_singleton] at hb
            subst hb
            rw [keyNe]
            rintro ⟨hsa, hta⟩
            have := List.any_eq_false.mp hany a ha
            rw [decide_eq_true_eq] at this
            exact this ⟨hsa, hta⟩
          · intro e he
            rcases List.mem_append.mp he with hin | hin
            · exact h2 e hin
            · rw [List.mem_singleton] at hin
              subst hin
              exact ⟨fun hc => hself hc.symm, htgt⟩
          · intro s t hst ht
            rw [hcount s t, edgeWeight_append_singleton]
            by_cases hkey : s = imp.fromFile ∧ t = target
            · obtain ⟨hks, hkt⟩ := hkey
              subst hks; subst hkt
              have hk : importKey af imp.fromFile t imp = true := by
                simp [importKey, hres]
              have hfind : edges.find?
                  (fun e => decide (e.source = imp.fromFile ∧ e.target = t)) = none := by
                rw [List.find?_eq_none]
                intro x hx
                have := List.any_eq_false.mp hany x hx
                simpa using this
              have h0 : pr.countP (importKey af imp.fromFile t) = 0 := by
                rw [h3 _ _ hst ht, edgeWeight_eq_zero_of_not_any edges _ _ hany]
              rw [hk, if_pos rfl, h0, hfind]
              simp
            · have hk : importKey af s t imp = false := by
                rw [importKey, decide_eq_false_iff_not]
                rintro ⟨hc1, hc2⟩
                rw [hres] at hc2
                injection hc2 with hc2
                exact hkey ⟨hc1.symm, hc2.symm⟩
              rw [hk, if_neg Bool.false_ne_true, Nat.add_zero]
              cases hf : edges.find? (fun e => decide (e.source = s ∧ e.target = t)) with
              | some e =>
                have h4 : List.countP (importKey af s t) pr = e.weight := by
                  have h5 := h3 s t hst ht
                  rw [edgeWeight, hf] at h5
                  exact h5
                exact h4
              | none =>
                rw [if_neg (by rintro ⟨ha, hb⟩; exact hkey ⟨ha.symm, hb.symm⟩)]
                have h5 := h3 s t hst ht
                rw [edgeWeight, hf] at h5
                exact h5

lemma graph_edges_inv (af : List String) :
    ∀ (imports : List ImportRec) (edges : List GEdge) (pr : List ImportRec),
      EdgeInv af edges pr →
      EdgeInv af (imports.foldl (addImportEdge af) edges) (pr ++ imports)
  | [], edges, pr, h => by simpa using h
  | imp :: rest, edges, pr, h => by
    have hrec := graph_edges_inv af rest (addImportEdge af edges imp) (pr ++ [imp])
      (addImportEdge_inv af edges pr imp h)
    rw [List.foldl_cons]
    simpa [List.append_assoc] using hrec

lemma edgeWeight_self_of_pairwise :
    ∀ (edges : List GEdge), List.Pairwise keyNe edges → ∀ e ∈ edges,
      edgeWeight edges e.source e.target = e.weight
  | [], _, e, he => absurd he (List.not_mem_nil _)
  | b :: rest, hpw, e, he => by
    rcases List.pairwise_cons.mp hpw with ⟨hhead, htail⟩
    rcases List.mem_cons.mp he with h | h
    · subst h
      rw [edgeWeight, List.find?_cons_of_pos _ (by simp)]
    · by_cases hk : b.source = e.source ∧ b.target = e.target
      · exact absurd hk (hhead e h)
      · rw [edgeWeight, List.find?_cons_of_neg _ (by simpa using hk)]
        exact edgeWeight_self_of_pairwise rest htail e h

/-- C4: in the edge list built by `graph_builder_node`, every ordered pair
of nodes carries at most one edge (all `(source, target)` keys are pairwise
distinct), no edge is a self-edge, and each edge's weight equals the number
of import occurrences whose source is the edge's source and whose module
resolves to the edge's target (the "resolved import occurrences merged into
it"). -/
theorem c4_edges_unique_weighted_no_self (all_files : List String) (imports : List ImportRec) :
    List.Pairwise keyNe (graph_builder_edges all_files imports) ∧
    (∀ e ∈ graph_builder_edges all_files imports, e.source ≠ e.target) ∧
    (∀ e ∈ graph_builder_edges all_files imports,
      e.weight = imports.countP (importKey all_files e.source e.target)) := by
  have hbase : EdgeInv all_files [] [] := by
    refine ⟨List.Pairwise.nil, by simp, fun s t hst ht => ?_⟩
    rw [edgeWeight, List.find?_nil, List.countP_nil]
  have h := graph_edges_inv all_files imports [] [] hbase
  rw [List.nil_append] at h
  obtain ⟨h1, h2, h3⟩ := h
  simp only [graph_builder_edges]
  refine ⟨h1, fun e he => (h2 e he).1, fun e he => ?_⟩
  have hw := h3 e.source e.target (h2 e he).1 (h2 e he).2
  rw [hw, edgeWeight_self_of_pairwise _ h1 e he]

/-- C4 witness: two imports of module `"a"` from `"app/b.py"` merge into the
single weight-2 intra-folder edge, which is not a self-edge and whose weight
is the count of matching resolved occurrences. -/
theorem c4_witness :
    c4DemoEdge.source ≠ c4DemoEdge.target ∧
    c4DemoEdge.weight =
      c4DemoImports.countP (importKey c4DemoFiles c4DemoEdge.source c4DemoEdge.target) :=
  ⟨(c4_edges_unique_weighted_no_self c4DemoFiles c4DemoImports).2.1 c4DemoEdge (by decide),
   (c4_edges_unique_weighted_no_self c4DemoFiles c4DemoImports).2.2 c4DemoEdge (by decide)⟩

/-! ## Claim C5: cluster partition and fallback -/

lemma countP_cluster_enum (cs : List (List String)) (p : List String → Bool) :
    ((cs.enum.map (fun ic =>
      ({ id := "cluster_" ++ toString ic.1, modules := ic.2 } : Cluster))).countP
        (fun c => p c.modules)) = cs.countP p := by
  rw [List.countP_map]
  have h2 : cs.countP p = (cs.enum.map Prod.snd).countP p := by rw [List.enum_map_snd]
  rw [h2, List.countP_map]
  rfl

/-- C5 counterexample: a run with no nodes (hence no edges) produces an
empty `clusters` list, not "exactly one cluster containing every node" —
the no-edge fallback promised by the claim is bypassed by the empty-graph
branch of `graph_builder_node`. -/
theorem c5_counterexample_empty_graph_empty_clusters :
    graph_builder_clusters [] 0 none = [] ∧
    (graph_builder_clusters [] 0 none).length ≠ 1 := by
  constructor <;> decide

/-- C5 amended: the clusters are always a partition of the node set (every
node lies in exactly one cluster, and clusters contain only nodes), and
whenever the graph has at least one node, the no-edge case and the
community-detection-failure case both yield exactly one cluster holding all
nodes; a zero-node graph instead yields an empty cluster list.  The
`hcomm` hypothesis is the NetworkX contract that a successful
`greedy_modularity_communities` call partitions the graph's nodes. -/
theorem c5_clusters_partition_with_fallback (nodes : List String) (numEdges : Nat)
    (comm : Option (List (List String)))
    (hcomm : ∀ cs, comm = some cs →
      ∀ x, cs.countP (fun c => decide (x ∈ c)) = if x ∈ nodes then 1 else 0) :
    (∀ n ∈ nodes, (graph_builder_clusters nodes numEdges comm).countP
        (fun c => decide (n ∈ c.modules)) = 1) ∧
    (∀ c ∈ graph_builder_clusters nodes numEdges comm, ∀ x ∈ c.modules, x ∈ nodes) ∧
    (nodes ≠ [] → (numEdges = 0 ∨ comm = none) →
      graph_builder_clusters nodes numEdges comm = [{ id := "cluster_0", modules := nodes }]) ∧
    (nodes = [] → graph_builder_clusters nodes numEdges comm = []) := by
  by_cases hn : nodes.length > 0
  · have hne : nodes ≠ [] := by
      intro h
      rw [h] at hn
      exact absurd hn (by simp)
    by_cases hedge : numEdges > 0
    · cases hc : comm with
      | none =>
        have hG : graph_builder_clusters nodes numEdges none =
            [{ id := "cluster_0", modules := nodes }] := by
          rw [graph_builder_clusters.eq_def, if_pos hn, if_pos hedge]
        rw [hG]
        refine ⟨fun n hn2 => ?_, fun c hcm => ?_, fun _ _ => rfl, fun h => absurd h hne⟩
        · rw [List.countP_cons, List.countP_nil]
          simp [hn2]
        · rw [List.mem_singleton] at hcm
          subst hcm
          exact fun x hx => hx
      | some cs =>
        have hG : graph_builder_clusters nodes numEdges (some cs) =
            cs.enum.map (fun ic =>
              ({ id := "cluster_" ++ toString ic.1, modules := ic.2 } : Cluster)) := by
          rw [graph_builder_clusters.eq_def, if_pos hn, if_pos hedge]
        rw [hG]
        refine ⟨fun n hn2 => ?_, fun c hcm => ?_, fun _ hd => ?_, fun h => absurd h hne⟩
        · rw [countP_cluster_enum cs (fun m => decide (n ∈ m)), hcomm cs hc n, if_pos hn2]
        · rcases List.mem_map.mp hcm with ⟨ic, hic, hfc⟩
          intro x hx
          have hmem : ic.2 ∈ cs := by
            have := List.mem_map_of_mem Prod.snd hic
            rwa [List.enum_map_snd] at this
          by_cases hxn : x ∈ nodes
          · exact hxn
          · exfalso
            have hz := hcomm cs hc x
            rw [if_neg hxn] at hz
            have hpos : 0 < cs.countP (fun c => decide (x ∈ c)) :=
              List.countP_pos.mpr ⟨ic.2, hmem, by
                subst hfc
                simpa using hx⟩
            rw [hz] at hpos
            exact absurd hpos (by simp)
        · rcases hd with hd | hd
          · exact absurd hd (by omega)
          · exact Option.noConfusion hd
    · have hz : numEdges = 0 := by omega
      subst hz
      have hG : graph_builder_clusters nodes 0 comm =
          [{ id := "cluster_0", modules := nodes }] := by
        rw [graph_builder_clusters.eq_def, if_pos hn, if_neg hedge]
      rw [hG]
      refine ⟨fun n hn2 => ?_, fun c hcm => ?_, fun _ _ => rfl, fun h => absurd h hne⟩
      · rw [List.countP_cons, List.countP_nil]
        simp [hn2]
      · rw [List.mem_singleton] at hcm
        subst hcm
        exact fun x hx => hx
  · have hnil : nodes = [] := List.eq_nil_of_length_eq_zero (by omega)
    subst hnil
    have hG : graph_builder_clusters [] numEdges comm = [] := by
      rw [graph_builder_clusters.eq_def]
      simp
    rw [hG]
    refine ⟨fun n hn2 => absurd hn2 (List.not_mem_nil n), fun c hcm => absurd hcm
      (List.not_mem_nil c), fun h => absurd rfl h, fun _ => rfl⟩

/-- C5 witness: the amended theorem applied to a two-node graph whose
community detection raised (`comm = none`): the node `"m/a.py"` lies in
exactly one cluster. -/
theorem c5_witness :
    (graph_builder_clusters c5DemoNodes 1 none).countP
      (fun c => decide ("m/a.py" ∈ c.modules)) = 1 :=
  (c5_clusters_partition_with_fallback c5DemoNodes 1 none
    (fun cs h => by cases h)).1 "m/a.py" (by decide)

/-! ## Claim C6: confidence bounds -/

lemma pyMin_bounds (a b : ℚ) (ha : 0 ≤ a) (hb : 0 ≤ b) :
    0 ≤ pyMin a b ∧ pyMin a b ≤ b := by
  rw [pyMin]
  split
  · exact ⟨ha, by assumption⟩
  · exact ⟨hb, le_refl b⟩

/-- C6: every record a detector emits has confidence at least `0` and at
most the detector's cap: `0.9` for Layered, `0.95` for MVC, `0.85` for
Microservices. -/
theorem c6_confidences_bounded (nodes mnodes : List GraphNode) (clusters : List Cluster)
    (r1 r2 r3 : PatternRecord) :
    (detect_layered_pattern nodes = some r1 →
      0 ≤ r1.confidence ∧ r1.confidence ≤ 9/10) ∧
    (detect_mvc_pattern mnodes = some r2 →
      0 ≤ r2.confidence ∧ r2.confidence ≤ 95/100) ∧
    (detect_microservices_pattern clusters = some r3 →
      0 ≤ r3.confidence ∧ r3.confidence ≤ 85/100) := by
  refine ⟨?_, ?_, ?_⟩
  · intro h
    rw [detect_layered_pattern.eq_def] at h
    by_cases hc : (layerFold nodes).length ≥ 2
    · rw [if_pos hc] at h
      injection h with h
      subst h
      exact pyMin_bounds _ _ (by positivity) (by norm_num)
    · rw [if_neg hc] at h
      exact Option.noConfusion h
  · intro h
    rw [detect_mvc_pattern.eq_def] at h
    by_cases hc : ((mvcKeywords.map (fun k =>
        (k, mnodes.filterMap (fun n =>
          if listHasSub k.data (strLower n.id).data then some n.id else none)))).filter
        (fun kv => !kv.2.isEmpty)).length ≥ 2
    · rw [if_pos hc] at h
      injection h with h
      subst h
      exact pyMin_bounds _ _ (by positivity) (by norm_num)
    · rw [if_neg hc] at h
      exact Option.noConfusion h
  · intro h
    rw [detect_microservices_pattern.eq_def] at h
    by_cases hc : clusters.length ≥ 3
    · rw [if_pos hc] at h
      injection h with h
      subst h
      exact pyMin_bounds _ _ (by positivity) (by norm_num)
    · rw [if_neg hc] at h
      exact Option.noConfusion h

/-- C6 witness: all three detectors fire on concrete inputs (two layer
groups, two MVC keyword categories, three clusters) and the resulting
records obey the bounds. -/
theorem c6_witness :
    (0 ≤ c6LayeredRec.confidence ∧ c6LayeredRec.confidence ≤ 9/10) ∧
    (0 ≤ c6MvcRec.confidence ∧ c6MvcRec.confidence ≤ 95/100) ∧
    (0 ≤ c6MicroRec.confidence ∧ c6MicroRec.confidence ≤ 85/100) :=
  ⟨(c6_confidences_bounded c6LayerNodes c6MvcNodes c6Clusters
      c6LayeredRec c6MvcRec c6MicroRec).1 rfl,
   (c6_confidences_bounded c6LayerNodes c6MvcNodes c6Clusters
      c6LayeredRec c6MvcRec c6MicroRec).2.1 rfl,
   (c6_confidences_bounded c6LayerNodes c6MvcNodes c6Clusters
      c6LayeredRec c6MvcRec c6MicroRec).2.2 rfl⟩

/-! ## Claim C7: the Layered detector -/

lemma addToGroups_keys (key nid : String) :
    ∀ (gs : List (String × List String)),
      (addToGroups gs key nid).map Prod.fst =
        if key ∈ gs.map Prod.fst then gs.map Prod.fst else gs.map Prod.fst ++ [key]
  | [] => by simp [addToGroups]
  | (k, v) :: rest => by
    rw [addToGroups]
    by_cases hk : k = key
    · subst hk
      rw [if_pos rfl]
      simp
    · rw [if_neg hk]
      rw [List.map_cons, List.map_cons, addToGroups_keys key nid rest]
      by_cases hm : key ∈ rest.map Prod.fst
      · rw [if_pos hm, if_pos (by simp [hm])]
      · have hkey : key ∉ (k :: rest.map Prod.fst) := by
          rw [List.mem_cons]
          rintro (h | h)
          · exact hk h.symm
          · exact hm h
        rw [if_neg hm, if_neg hkey]
        simp

lemma dedupFirstFrom_congr (s1 s2 : List String) (h : ∀ x, x ∈ s1 ↔ x ∈ s2) :
    ∀ l, dedupFirstFrom s1 l = dedupFirstFrom s2 l
  | [] => rfl
  | a :: rest => by
    rw [dedupFirstFrom, dedupFirstFrom]
    by_cases ha : a ∈ s1
    · rw [if_pos ha, if_pos ((h a).mp ha)]
      exact dedupFirstFrom_congr s1 s2 h rest
    · rw [if_neg ha, if_neg (fun hx => ha ((h a).mpr hx))]
      rw [dedupFirstFrom_congr (a :: s1) (a :: s2) (fun x => by simp [h x]) rest]

lemma secondSeg_of_long (id : String) (h : (partsOf id).length > 1) :
    secondSeg id = some ((partsOf id).getD 1 "") := by
  rw [secondSeg, List.getElem?_eq_getElem h, List.getD_eq_getElem?_getD,
    List.getElem?_eq_getElem h]
  rfl

lemma secondSeg_of_short (id : String) (h : ¬(partsOf id).length > 1) :
    secondSeg id = none := by
  rw [secondSeg, List.getElem?_eq_none]
  omega

lemma layerFold_keys_aux :
    ∀ (nodes : List GraphNode) (gs : List (String × List String)),
      (nodes.foldl layerStep gs).map Prod.fst =
        gs.map Prod.fst ++
          dedupFirstFrom (gs.map Prod.fst) (nodes.filterMap (fun n => secondSeg n.id))
  | [], gs => by simp [dedupFirstFrom]
  | node :: rest, gs => by
    rw [List.foldl_cons]
    by_cases hlen : (partsOf node.id).length > 1
    · have hseg := secondSeg_of_long node.id hlen
      simp only [List.filterMap_cons, hseg]
      have hstep : layerStep gs node = addToGroups gs ((partsOf node.id).getD 1 "") node.id := by
        simp only [layerStep]
        rw [if_pos hlen]
      rw [hstep, layerFold_keys_aux rest (addToGroups gs ((partsOf node.id).getD 1 "") node.id),
        addToGroups_keys ((partsOf node.id).getD 1 "") node.id gs]
      by_cases hm : (partsOf node.id).getD 1 "" ∈ gs.map Prod.fst
      · rw [if_pos hm, dedupFirstFrom, if_pos hm]
      · rw [if_neg hm, dedupFirstFrom, if_neg hm, List.append_assoc, List.singleton_append]
        rw [dedupFirstFrom_congr (gs.map Prod.fst ++ [(partsOf node.id).getD 1 ""])
          ((partsOf node.id).getD 1 "" :: gs.map Prod.fst) (fun x => by simp; tauto)
          (rest.filterMap (fun n => secondSeg n.id))]
    · have hseg := secondSeg_of_short node.id hlen
      simp only [List.filterMap_cons, hseg]
      have hstep : layerStep gs node = gs := by
        simp only [layerStep]
        rw [if_neg hlen]
      rw [hstep]
      exact layerFold_keys_aux rest gs

lemma layerFold_keys (nodes : List GraphNode) :
    (layerFold nodes).map Prod.fst = layerKeys nodes := by
  rw [layerFold, layerKeys, layerFold_keys_aux nodes []]
  simp

/-- C7: the Layered detector groups nodes by their `parts[1]` path segment
(the first segment below the assumed top level): it emits a record exactly
when there are at least two distinct such groups; the group names are
exactly the distinct `parts[1]` segments of nodes with at least two
segments; and the emitted record carries
`confidence = min(0.6 + 0.1 * groupCount, 0.9)` and a single evidence
string naming the groups. -/
theorem c7_layered_detector_characterized (nodes : List GraphNode) :
    ((detect_layered_pattern nodes).isSome ↔ 2 ≤ (layerKeys nodes).length) ∧
    (∀ k, k ∈ layerKeys nodes ↔ ∃ n ∈ nodes, secondSeg n.id = some k) ∧
    (∀ r, detect_layered_pattern nodes = some r →
      r.confidence = pyMin ((6:ℚ)/10 + ((layerKeys nodes).length : ℚ) * (1/10)) (9/10) ∧
      r.evidence = ["Found " ++ toString (layerKeys nodes).length ++ " distinct layers: " ++
        String.intercalate ", " (layerKeys nodes)]) := by
  have hlen : (layerFold nodes).length = (layerKeys nodes).length := by
    rw [← layerFold_keys nodes, List.length_map]
  have hkeys := layerFold_keys nodes
  refine ⟨?_, ?_, ?_⟩
  · rw [detect_layered_pattern.eq_def]
    by_cases h2 : (layerFold nodes).length ≥ 2
    · rw [if_pos h2]
      simp only [Option.isSome_some, true_iff]
      omega
    · rw [if_neg h2]
      constructor
      · intro hx
        simp at hx
      · intro hx
        exact absurd hx (by omega)
  · intro k
    rw [layerKeys, mem_dedupFirstFrom]
    simp [List.mem_filterMap]
  · intro r h
    rw [detect_layered_pattern.eq_def] at h
    by_cases h2 : (layerFold nodes).length ≥ 2
    · rw [if_pos h2] at h
      injection h with h
      subst h
      exact ⟨by rw [← hlen], by rw [← hlen, ← hkeys]⟩
    · rw [if_neg h2] at h
      exact Option.noConfusion h

/-- C7 witness: on three nodes under `src/backend` and `src/frontend` the
detector fires, the group-name characterization holds at `"backend"`, and
the emitted record has the claimed confidence and evidence. -/
theorem c7_witness :
    (detect_layered_pattern c7DemoNodes).isSome ∧
    ("backend" ∈ layerKeys c7DemoNodes ↔
      ∃ n ∈ c7DemoNodes, secondSeg n.id = some "backend") ∧
    c7DemoRec.confidence =
      pyMin ((6:ℚ)/10 + ((layerKeys c7DemoNodes).length : ℚ) * (1/10)) (9/10) ∧
    c7DemoRec.evidence = ["Found " ++ toString (layerKeys c7DemoNodes).length ++
      " distinct layers: " ++ String.intercalate ", " (layerKeys c7DemoNodes)] :=
  ⟨(c7_layered_detector_characterized c7DemoNodes).1.mpr (by decide),
   (c7_layered_detector_characterized c7DemoNodes).2.1 "backend",
   ((c7_layered_detector_characterized c7DemoNodes).2.2 c7DemoRec rfl).1,
   ((c7_layered_detector_characterized c7DemoNodes).2.2 c7DemoRec rfl).2⟩

/-! ## Claim C8: concrete call-flow trace -/

/-- C8: with call facts `foo -> bar`, `bar -> baz`, start `"foo"` and
`max_depth = 5`, the tracer returns exactly `foo -> bar` at depth 0 followed
by `bar -> baz` at depth 1: each node's direct calls precede its nested
expansion. -/
theorem c8_trace_foo_bar_baz :
    (get_call_flow "foo" 5 c8DemoCalls).calls =
      [{ fromFn := "foo", from_class := none, toFn := "bar", file := "a.py",
         line := 1, depth := 0 },
       { fromFn := "bar", from_class := none, toFn := "baz", file := "a.py",
         line := 2, depth := 1 }] := by
  decide

/-! ## Claim C9: unmatched start identifier and available identifiers -/

/-- C9: when the start identifier matches neither any call fact's caller
name nor any caller's rendered `class.method` composite, the tracer returns
an empty call list; and as long as at least one call fact exists (with the
caller names the extractor produces, which are never empty strings), the
returned available-identifiers list is non-empty. -/
theorem c9_no_match_empty_calls_available_nonempty
    (start : String) (md : Nat) (fc : List FunctionCall)
    (hmatch : ∀ c ∈ fc, matchesCaller start c = false)
    (hnames : ∀ c ∈ fc, c.from_function ≠ "") :
    (get_call_flow start md fc).calls = [] ∧
    (fc ≠ [] → (get_call_flow start md fc).available_methods ≠ []) := by
  cases fc with
  | nil =>
    constructor
    · rfl
    · intro h
      exact absurd rfl h
  | cons c rest =>
    have hne : ¬(c :: rest).isEmpty = true := by simp
    constructor
    · rw [get_call_flow, if_neg hne]
      simp only [trace_calls]
      cases md with
      | zero => rfl
      | succ fuel =>
        rw [trace_aux]
        rw [if_neg (List.not_mem_nil start)]
        have hfilter : (c :: rest).filter (matchesCaller start) = [] := by
          rw [List.filter_eq_nil_iff]
          intro a ha
          rw [hmatch a ha]
          exact Bool.false_ne_true
        simp [hfilter]
    · intro _
      rw [get_call_flow, if_neg hne]
      simp only
      intro habs
      have hlen := congrArg List.length habs
      rw [List.length_take, sortStrings_length] at hlen
      have hc : (if c.from_function = "" then none else some c.from_function) =
          some c.from_function := by
        rw [if_neg (hnames c (List.mem_cons_self _ _))]
      have hd : dedupFirstFrom []
          ((c :: rest).filterMap (fun x =>
            if x.from_function = "" then none else some x.from_function)) =
          c.from_function :: dedupFirstFrom [c.from_function]
            (rest.filterMap (fun x =>
              if x.from_function = "" then none else some x.from_function)) := by
        simp only [List.filterMap_cons, hc]
        rw [dedupFirstFrom, if_neg (List.not_mem_nil c.from_function)]
      rw [hd] at hlen
      simp at hlen

/-- C9 witness: start identifier `"zzz"` matches no caller of the two
demonstration call facts: the call list is empty while the
available-identifiers list is not. -/
theorem c9_witness :
    (get_call_flow "zzz" 3 c9DemoCalls).calls = [] ∧
    (get_call_flow "zzz" 3 c9DemoCalls).available_methods ≠ [] :=
  ⟨(c9_no_match_empty_calls_available_nonempty "zzz" 3 c9DemoCalls
      (by decide) (by decide)).1,
   (c9_no_match_empty_calls_available_nonempty "zzz" 3 c9DemoCalls
      (by decide) (by decide)).2 (by decide)⟩
